import Mathlib

/-!
Verification of the moose-temperature-ssf concurrent job-dispatch worker pool.

Shallow embedding of `src/smhi/multiprocessing.py` (the authoritative variant)
and `src/smhi/smhi/util/multiprocessing.py` (the older variant referenced by
claim C9), together with the shared-memory publish/fetch channel
(`serialize_to_shared_memory` / `deserialize_from_shared_memory`).

Modelling conventions:
* Python `None` is `Option.none`; a queue item `Job | Sentinel` is `Option Job`.
* A job payload is opaque; we use `Nat` identifiers.
* The concurrent system (one `BaseManager` plus `num_workers` `BaseWorker`
  processes) is embedded as a labelled transition system: a scheduler supplies
  a list of labels, each label is one atomic step of one process.  Steps that
  are atomic in the source stay atomic here: the counter increment is guarded
  by `progress_counter.get_lock()` in the source, and the
  get-process-increment sequence of a worker is serialised against the queue operations of
  other workers by the internal locking of the manager-process queue.  A separate,
  finer-grained model (`CtrState` below) opens up the lock-protected
  read/increment/write so that atomicity under concurrent writers is itself
  proved rather than assumed; that model also carries the `c_int` semantics
  of `mp.Value('i', 0)` — a 32-bit value whose locked `+= 1` silently wraps
  at `2^31` (`wrap32` below).  In `SysState` the field `counter` is the ghost
  *number of completed increments* (a natural number); the `c_int` value the
  processes actually observe is `wrap32` of it, and the two agree on every
  run whose job total stays below `2^31`.
* the body of `BaseWorker.run` is additionally embedded on its own as `workerRunScript`,
  driven by a script of `queue.get` outcomes, so that the engine
  acquire/release discipline on *abnormal* exit paths (an exception raised by a
  queue operation, outside the `try` that guards `process_job`) can be settled.
-/

namespace SMHI

/-- An opaque job payload (e.g. a station id). -/
abbrev Job := Nat

/-- A queue item: `some j` is a real `Job`, `none` is the Python `None`
sentinel pushed by `BaseManager.stop_workers`. -/
abbrev Item := Option Job

/-- Status of a worker process. -/
inductive WStatus
  | running
  | terminated
  deriving DecidableEq, Repr

/-- One `BaseWorker` process, with the ghost bookkeeping the claims talk
about: how many sentinels it has consumed and the state of its private
database engine (`self.engine = get_engine()` on entry,
`self.engine.dispose()` on the sentinel exit path). -/
structure Worker where
  status : WStatus
  sentinels : Nat
  engineAcquired : Bool
  engineDisposed : Bool
  deriving DecidableEq, Repr

/-- A freshly spawned worker: `run` has executed `self.engine = get_engine()`
and entered its loop. -/
def Worker.fresh : Worker :=
  { status := .running, sentinels := 0, engineAcquired := true, engineDisposed := false }

/-- Control point of `BaseManager.run`:
`created` = before `run` is called; `waiting` = workers started, polling
`progress_counter.value < total_jobs`; `joining` = sentinels pushed by
`stop_workers`, joining workers; `done` = `run` has returned. -/
inductive Phase
  | created
  | waiting
  | joining
  | done
  deriving DecidableEq, Repr

/-- Global state of one manager run: the shared queue, the shared
`mp.Value('i', 0)` progress counter — tracked here as the ghost *number of
successful increments performed*, a natural number; the stored `c_int` is
`wrap32` of it and agrees with it below `2^31` (the wrap itself is settled in
the lock-granular `CtrState` model) — the worker pool and the control point
of the manager, plus ghost fields: `completed` records each successfully processed job,
`tries` records each failed attempt (so `tries.count j` is the number of times
`process_job j` has raised so far), `sentinelsEnqueued` counts every `None`
ever `put` by `stop_workers`, and `noticeEmitted` records the
"No jobs to process." print of the zero-job short-circuit. -/
structure SysState where
  queue : List Item
  counter : Nat
  workers : List Worker
  phase : Phase
  totalJobs : Nat
  sentinelsEnqueued : Nat
  completed : List Job
  tries : List Job
  noticeEmitted : Bool
  deriving DecidableEq, Repr

/-- State after `BaseManager.__init__`: empty queue, counter `0`
(`mp.Value('i', 0)`), no workers, `total_jobs = 0`. -/
def initState : SysState :=
  { queue := [], counter := 0, workers := [], phase := .created,
    totalJobs := 0, sentinelsEnqueued := 0, completed := [], tries := [],
    noticeEmitted := false }

/-- One atomic step of one process. -/
inductive Label
  /-- The manager executes `create_jobs()`, the `total_jobs == 0` check and, if
  jobs exist, `start_workers` (spawning `num_workers` workers). -/
  | managerRun
  /-- Worker `i` executes one iteration of its loop: `job_queue.get()` followed
  by the sentinel check or the `try: process_job / except: put` block. -/
  | workerStep (i : Nat)
  /-- The polling loop of the manager observes `counter >= total_jobs`, exits, and
  `stop_workers` pushes `num_workers` sentinels. -/
  | pushSentinels
  /-- Label for `stop_workers` joining every worker; enabled once all have exited. -/
  | joinWorkers
  deriving DecidableEq, Repr

/-- The labelled step function of the pool.  `handler j a` tells whether
`process_job j` succeeds on its attempt number `a` (`false` = raises).
`none` means the label is not enabled in `s` (that process cannot move). -/
def step (handler : Job → Nat → Bool) (nw : Nat) (jobs : List Job)
    (s : SysState) : Label → Option SysState
  | .managerRun =>
    if s.phase = .created then
      if jobs.length = 0 then
        -- `print("No jobs to process."); return`
        some { s with phase := .done, noticeEmitted := true }
      else
        some { s with phase := .waiting,
                      totalJobs := jobs.length,
                      queue := s.queue ++ jobs.map some,
                      workers := List.replicate nw Worker.fresh }
    else none
  | .workerStep i =>
    if s.phase = .waiting ∨ s.phase = .joining then
      match s.workers[i]? with
      | some w =>
        if w.status = .running then
          match s.queue with
          | [] => none   -- `job_queue.get()` blocks on the empty queue
          | Option.none :: rest =>
            -- sentinel: `task_done(); engine.dispose(); break`
            some { s with queue := rest,
                          workers := s.workers.set i
                            { w with status := .terminated,
                                     sentinels := w.sentinels + 1,
                                     engineDisposed := true } }
          | some j :: rest =>
            if handler j (s.tries.count j) then
              -- success: `with progress_counter.get_lock(): value += 1`
              some { s with queue := rest,
                            counter := s.counter + 1,
                            completed := s.completed ++ [j] }
            else
              -- `except Exception: job_queue.put(job)`
              some { s with queue := rest ++ [some j],
                            tries := s.tries ++ [j] }
        else none
      | Option.none => none
    else none
  | .pushSentinels =>
    if s.phase = .waiting ∧ s.totalJobs ≤ s.counter then
      some { s with phase := .joining,
                    queue := s.queue ++ List.replicate nw Option.none,
                    sentinelsEnqueued := s.sentinelsEnqueued + nw }
    else none
  | .joinWorkers =>
    if s.phase = .joining ∧ s.workers.all (·.status = .terminated) then
      some { s with phase := .done }
    else none

/-- Total step: a disabled label leaves the state unchanged (that process
simply does not move at that point of the schedule). -/
def stepD (handler : Job → Nat → Bool) (nw : Nat) (jobs : List Job)
    (s : SysState) (l : Label) : SysState :=
  (step handler nw jobs s l).getD s

/-- Execute a whole schedule. -/
def runSys (handler : Job → Nat → Bool) (nw : Nat) (jobs : List Job) :
    List Label → SysState → SysState
  | [], s => s
  | l :: ls, s => runSys handler nw jobs ls (stepD handler nw jobs s l)

/-! ## Shared Data Channel: `serialize_to_shared_memory` / `deserialize_from_shared_memory`

The OS shared-memory namespace is a map from segment names to byte contents.
`pickle.dumps`/`pickle.loads` are external stdlib collaborators and appear as
parameters `dumps`/`loads`; bytes are `List Nat`.  When the caller passes
`shm_name=None` the runtime picks a fresh name; the embedding takes the chosen
name as an argument. -/

/-- Python-level errors surfaced by the shared-memory channel. -/
inductive PyError
  | fileNotFound      -- `SharedMemory(name=...)` on a missing or destroyed name
  | fileExists        -- `SharedMemory(create=True, ..., name=...)` on a live name
  | unpicklingError   -- `pickle.loads` failed on the read bytes
  deriving DecidableEq, Repr

/-- The OS shared-memory namespace: the live named segments and their bytes. -/
abbrev ShmState := List (String × List Nat)

/-- Locate a live segment by name. -/
def lookupSeg (st : ShmState) (name : String) : Option (List Nat) :=
  (st.find? (fun p => p.1 = name)).map (·.2)

/-- Model of `SharedMemory.unlink()`: destroy the named segment (remove it from the
OS namespace). -/
def unlinkSeg (st : ShmState) (name : String) : ShmState :=
  st.filter (fun p => ¬ p.1 = name)

/-- Embedding of `serialize_to_shared_memory(data, shm_name)`:
`data_bytes = pickle.dumps(data)`;
`shm = SharedMemory(create=True, size=len(data_bytes), name=shm_name)`
(fails if the name is already a live segment);
`shm.buf[:len(data_bytes)] = data_bytes`;
`return shm, shm.name`.  The embedding returns the new namespace, the segment
name, and the size the segment was created with (`len(data_bytes)` exactly). -/
def serialize_to_shared_memory {α : Type} (dumps : α → List Nat)
    (st : ShmState) (data : α) (shm_name : String) :
    Except PyError (ShmState × String × Nat) :=
  let data_bytes := dumps data
  if (lookupSeg st shm_name).isSome then Except.error PyError.fileExists
  else Except.ok ((shm_name, data_bytes) :: st, shm_name, data_bytes.length)

/-- Result of a `deserialize_from_shared_memory` call: the returned value or
propagated error, whether `SharedMemory(name=shm_name)` attached, and whether
`shm.close()` released the local attachment. -/
structure FetchResult (α : Type) where
  result : Except PyError α
  attached : Bool
  closed : Bool

/-- Embedding of `deserialize_from_shared_memory(shm_name)`:
`shm = SharedMemory(name=shm_name)` (raises `FileNotFoundError` for a
never-created or destroyed name);
`try: data_bytes = bytes(shm.buf[:]); data = pickle.loads(data_bytes)`
`finally: shm.close()` — so once attached, the local attachment is released
on the success path and on the error path alike. -/
def deserialize_from_shared_memory {α : Type} (loads : List Nat → Option α)
    (st : ShmState) (shm_name : String) : FetchResult α :=
  match lookupSeg st shm_name with
  | Option.none => ⟨Except.error PyError.fileNotFound, false, false⟩
  | some bytes =>
    match loads bytes with
    | some data => ⟨Except.ok data, true, true⟩
    | Option.none => ⟨Except.error PyError.unpicklingError, true, true⟩

/-! ## `BaseWorker.run` on its own, driven by a script of `queue.get` outcomes

This finer view exposes the engine lifecycle on *abnormal* exit paths: the
source has no `try/finally` around the `while` loop, so an exception raised by
a queue operation propagates out of `run` without `engine.dispose()`. -/

/-- Outcome of one `self.job_queue.get()` call. -/
inductive GetOutcome
  | item (it : Item)   -- `get` returns an item (job or sentinel)
  | raiseErr           -- the queue operation raises
  deriving DecidableEq, Repr

/-- Observable result of `BaseWorker.run`. -/
structure RunResult where
  exited : Bool          -- the loop ended (by `break` or a propagated exception)
  unhandled : Bool       -- it ended with an exception not caught inside the loop
  engineAcquired : Bool  -- `self.engine = get_engine()` ran
  engineDisposed : Bool  -- `self.engine.dispose()` ran
  counterIncrements : Nat
  deriving DecidableEq, Repr

/-- Embedding of `BaseWorker.run`: acquire the engine, then loop over `get` outcomes.
A sentinel (`None`) runs `task_done(); engine.dispose(); break`.  A job runs
`process_job` inside `try/except`: success increments the counter, failure
re-enqueues and continues.  An exception from `get` itself is unhandled and
propagates: the loop ends with the engine still undisposed. -/
def workerRunScript (handler : Job → Bool) : List GetOutcome → Nat → RunResult
  | [], acc =>
    { exited := false, unhandled := false, engineAcquired := true,
      engineDisposed := false, counterIncrements := acc }
  | .raiseErr :: _, acc =>
    { exited := true, unhandled := true, engineAcquired := true,
      engineDisposed := false, counterIncrements := acc }
  | .item Option.none :: _, acc =>
    { exited := true, unhandled := false, engineAcquired := true,
      engineDisposed := true, counterIncrements := acc }
  | .item (some j) :: rest, acc =>
    if handler j then workerRunScript handler rest (acc + 1)
    else workerRunScript handler rest acc

/-! ## The shared counter at lock granularity

`mp.Value('i', 0)` with `with self.progress_counter.get_lock():
self.progress_counter.value += 1`.  The stored value is a ctypes `c_int`: a
32-bit two-complement integer, so the locked `+= 1` computes the Python int
`v + 1` and silently stores its low 32 bits (signed) — at `2^31 - 1` the next
increment stores `-2^31`.  The increment is a read followed by a write, both
performed while holding the lock of the counter; the model makes the read and
the write separate steps and lets the lock be the only thing preventing
interleaving, so `N*M` total increments without lost updates (up to the
int32 wrap) is a consequence of mutual exclusion, not an assumption. -/

/-- Int32 wrap: the value a ctypes `c_int` stores for the Python int `n`
(two-complement, range `[-2^31, 2^31)`). -/
def wrap32 (n : Int) : Int := (n + 2147483648) % 4294967296 - 2147483648

/-- State of the lock of the counter. -/
inductive LockSt
  | free
  | held (i : Nat)              -- worker `i` acquired the lock, not yet read
  | heldRead (i : Nat) (v : Int)  -- worker `i` read value `v` under the lock
  deriving DecidableEq, Repr

/-- Shared `c_int` counter plus, per worker, how many increments it still has
to do. -/
structure CtrState where
  counter : Int
  remaining : List Nat
  lock : LockSt
  deriving DecidableEq, Repr

/-- One atomic machine-level step of the increment protocol. -/
inductive CtrLabel
  | acquire (i : Nat)
  | readVal (i : Nat)
  | writeVal (i : Nat)
  deriving DecidableEq, Repr

/-- Step of the lock-granular counter: `acquire` needs the lock free and work
left; `readVal` reads the current value under the lock; `writeVal` stores the
int32 wrap of the read value plus one (`c_int` assignment truncates
silently), releases the lock, and consumes one pending increment. -/
def ctrStep (s : CtrState) : CtrLabel → Option CtrState
  | .acquire i =>
    match s.lock, s.remaining[i]? with
    | .free, some (_r + 1) => some { s with lock := .held i }
    | _, _ => none
  | .readVal i =>
    match s.lock with
    | .held i' => if i' = i then some { s with lock := .heldRead i s.counter } else none
    | _ => none
  | .writeVal i =>
    match s.lock with
    | .heldRead i' v =>
      if i' = i then
        some { counter := wrap32 (v + 1),
               remaining := s.remaining.set i (s.remaining.getD i 0 - 1),
               lock := .free }
      else none
    | _ => none

/-- Total lock-granular step: a disabled label is just a process not moving. -/
def ctrStepD (s : CtrState) (l : CtrLabel) : CtrState :=
  (ctrStep s l).getD s

/-- Run a schedule of lock-granular steps. -/
def ctrRun : List CtrLabel → CtrState → CtrState
  | [], s => s
  | l :: ls, s => ctrRun ls (ctrStepD s l)

/-- Initial counter state: `N` workers, each with `M` increments to perform,
counter at 0 (`mp.Value('i', 0)`). -/
def ctrInit (N M : Nat) : CtrState :=
  { counter := 0, remaining := List.replicate N M, lock := .free }

/-- Invariant of the increment protocol: the stored `c_int` is the int32 wrap
of the number of increments performed so far, a value read under the lock is
still the current counter (nobody else can write while the lock is held), and
a lock holder still has work pending. -/
def CtrInv (T : Nat) (s : CtrState) : Prop :=
  s.remaining.sum ≤ T ∧
  s.counter = wrap32 ((T : Int) - (s.remaining.sum : Int)) ∧
  (∀ i v, s.lock = .heldRead i v → v = s.counter ∧ 1 ≤ s.remaining.getD i 0) ∧
  (∀ i, s.lock = .held i → 1 ≤ s.remaining.getD i 0)

/-! ## The `BaseManager` variant of `src/smhi/smhi/util/multiprocessing.py` -/

/-- The `num_workers` bookkeeping of the variant manager. -/
structure VariantManager where
  num_workers : Int
  deriving DecidableEq, Repr

/-- Embedding of `__init__(self, engine, title, num_workers=-1)` of the variant:
the first line computes
`self.num_workers = os.cpu_count() if num_workers == -1 else num_workers`,
but a later line assigns `self.num_workers = num_workers` again,
overwriting the computed value with the raw argument. -/
def variantInit (cpu_count : Nat) (num_workers : Int) : VariantManager :=
  let m1 : VariantManager :=
    { num_workers := if num_workers = -1 then (cpu_count : Int) else num_workers }
  { m1 with num_workers := num_workers }

/-- Length of `range(n)` for a possibly negative `n`: the Python `range` is empty on
negative arguments, so `for _ in range(self.num_workers)` in
`start_workers`/`stop_workers` iterates `n.toNat` times. -/
def pyRangeLen (n : Int) : Nat := n.toNat

/-- Total number of sentinels consumed so far by a worker pool. -/
def sentSum (ws : List Worker) : Nat := (ws.map (·.sentinels)).sum

/-- Per-worker invariant: the engine was acquired on entry; a running worker
has consumed no sentinel and still holds its engine; a terminated worker has
consumed exactly one sentinel and has disposed its engine. -/
def WInv (w : Worker) : Prop :=
  w.engineAcquired = true ∧
  ((w.status = .running ∧ w.sentinels = 0 ∧ w.engineDisposed = false) ∨
   (w.status = .terminated ∧ w.sentinels = 1 ∧ w.engineDisposed = true))

/-- The state `run()` leaves behind on the zero-job short-circuit. -/
def zeroJobDone : SysState :=
  { initState with phase := .done, noticeEmitted := true }

/-- Global invariant of the pool, by manager control point. -/
def Inv (nw : Nat) (jobs : List Job) (s : SysState) : Prop :=
  match s.phase with
  | .created => s = initState
  | .waiting =>
      jobs ≠ [] ∧
      s.totalJobs = jobs.length ∧
      s.workers = List.replicate nw Worker.fresh ∧
      s.sentinelsEnqueued = 0 ∧
      s.queue.all (·.isSome) = true ∧
      s.counter = s.completed.length ∧
      s.counter + s.queue.length = jobs.length ∧
      (∀ j, s.completed.count j + s.queue.count (some j) = jobs.count j) ∧
      s.noticeEmitted = false
  | .joining =>
      jobs ≠ [] ∧
      s.totalJobs = jobs.length ∧
      s.counter = jobs.length ∧
      s.counter = s.completed.length ∧
      (∀ j, s.completed.count j = jobs.count j) ∧
      s.queue.all (· = Option.none) = true ∧
      s.sentinelsEnqueued = nw ∧
      s.workers.length = nw ∧
      s.queue.length + sentSum s.workers = nw ∧
      (∀ w ∈ s.workers, WInv w) ∧
      s.noticeEmitted = false
  | .done =>
      (jobs = [] ∧ s = zeroJobDone) ∨
      (jobs ≠ [] ∧
       s.totalJobs = jobs.length ∧
       s.counter = jobs.length ∧
       s.counter = s.completed.length ∧
       (∀ j, s.completed.count j = jobs.count j) ∧
       s.queue.all (· = Option.none) = true ∧
       s.sentinelsEnqueued = nw ∧
       s.workers.length = nw ∧
       s.queue.length + sentSum s.workers = nw ∧
       (∀ w ∈ s.workers, w.status = .terminated ∧ WInv w) ∧
       s.noticeEmitted = false)

theorem winv_fresh : WInv Worker.fresh := by
  constructor
  · rfl
  · exact Or.inl ⟨rfl, rfl, rfl⟩

theorem sentSum_replicate_fresh (nw : Nat) :
    sentSum (List.replicate nw Worker.fresh) = 0 := by
  induction nw with
  | zero => rfl
  | succ n ih =>
    simp only [sentSum, List.replicate_succ, List.map_cons, List.sum_cons] at ih ⊢
    simp [Worker.fresh, ih]

theorem sentSum_set (ws : List Worker) (i : Nat) (w w' : Worker)
    (h : ws[i]? = some w) :
    sentSum (ws.set i w') + w.sentinels = sentSum ws + w'.sentinels := by
  induction ws generalizing i with
  | nil => simp at h
  | cons a l ih =>
    cases i with
    | zero =>
      simp only [List.getElem?_cons_zero, Option.some.injEq] at h
      subst h
      simp [sentSum, List.set]
      omega
    | succ n =>
      simp only [List.getElem?_cons_succ] at h
      have := ih n h
      simp only [sentSum, List.set, List.map_cons, List.sum_cons] at this ⊢
      omega

theorem mem_of_getElemQ {α : Type} (l : List α) (i : Nat) (a : α)
    (h : l[i]? = some a) : a ∈ l := by
  induction l generalizing i with
  | nil => simp at h
  | cons b t ih =>
    cases i with
    | zero =>
      simp only [List.getElem?_cons_zero, Option.some.injEq] at h
      simp [h]
    | succ n =>
      simp only [List.getElem?_cons_succ] at h
      exact List.mem_cons_of_mem _ (ih n h)

theorem forall_mem_set {α : Type} {P : α → Prop} (l : List α) (i : Nat) (a : α)
    (hl : ∀ x ∈ l, P x) (ha : P a) : ∀ x ∈ l.set i a, P x := by
  induction l generalizing i with
  | nil => simp
  | cons b t ih =>
    cases i with
    | zero =>
      intro x hx
      rcases List.mem_cons.mp hx with h | h
      · exact h ▸ ha
      · exact hl x (List.mem_cons_of_mem _ h)
    | succ n =>
      intro x hx
      rcases List.mem_cons.mp hx with h | h
      · exact h ▸ hl b (List.mem_cons_self _ _)
      · exact ih n (fun y hy => hl y (List.mem_cons_of_mem _ hy)) x h

theorem count_map_some (jobs : List Job) (j : Job) :
    (jobs.map some).count (some j) = jobs.count j := by
  induction jobs with
  | nil => rfl
  | cons a l ih => simp [List.count_cons, ih]

theorem stepD_eq_of_none {handler : Job → Nat → Bool} {nw : Nat} {jobs : List Job}
    {s : SysState} {l : Label} (h : step handler nw jobs s l = none) :
    stepD handler nw jobs s l = s := by
  simp [stepD, h]

theorem inv_stepD_managerRun (handler : Job → Nat → Bool) (nw : Nat) (jobs : List Job)
    (s : SysState) (h : Inv nw jobs s) :
    Inv nw jobs (stepD handler nw jobs s .managerRun) := by
  obtain ⟨q, c, ws, ph, tj, se, comp, tr, no⟩ := s
  cases ph with
  | created =>
    have hs : (⟨q, c, ws, .created, tj, se, comp, tr, no⟩ : SysState) = initState := h
    rw [hs]
    by_cases hj : jobs.length = 0
    · have hz : stepD handler nw jobs initState .managerRun = zeroJobDone := by
        simp [stepD, step, hj, initState, zeroJobDone]
      rw [hz]
      exact Or.inl ⟨List.length_eq_zero.mp hj, rfl⟩
    · have hW : stepD handler nw jobs initState .managerRun =
          { initState with
            phase := .waiting
            totalJobs := jobs.length
            queue := jobs.map some
            workers := List.replicate nw Worker.fresh } := by
        simp [stepD, step, hj, initState]
      rw [hW]
      refine ⟨?_, rfl, rfl, rfl, ?_, rfl, ?_, ?_, rfl⟩
      · exact fun hnil => hj (by simp [hnil])
      · simp
      · simp [initState]
      · intro j
        simp only [initState, List.count_nil, Nat.zero_add]
        exact count_map_some jobs j
  | waiting =>
    have hn : step handler nw jobs ⟨q, c, ws, .waiting, tj, se, comp, tr, no⟩
        .managerRun = none := by
      simp [step]
    rw [stepD_eq_of_none hn]; exact h
  | joining =>
    have hn : step handler nw jobs ⟨q, c, ws, .joining, tj, se, comp, tr, no⟩
        .managerRun = none := by
      simp [step]
    rw [stepD_eq_of_none hn]; exact h
  | done =>
    have hn : step handler nw jobs ⟨q, c, ws, .done, tj, se, comp, tr, no⟩
        .managerRun = none := by
      simp [step]
    rw [stepD_eq_of_none hn]; exact h

theorem fresh_status : Worker.fresh.status = WStatus.running := rfl

theorem count_cons_some (j' j : Job) (rest : List Item) :
    (some j :: rest).count (some j') = rest.count (some j') + (if j' = j then 1 else 0) := by
  by_cases hjj : j' = j <;> simp [List.count_cons, hjj]

theorem count_append_some (rest : List Item) (j' j : Job) :
    (rest ++ [some j]).count (some j') = rest.count (some j') + (if j' = j then 1 else 0) := by
  by_cases hjj : j' = j <;> simp [List.count_append, hjj]

theorem count_append_one (comp : List Job) (j' j : Job) :
    (comp ++ [j]).count j' = comp.count j' + (if j' = j then 1 else 0) := by
  by_cases hjj : j' = j <;> simp [List.count_append, hjj]

theorem inv_stepD_worker (handler : Job → Nat → Bool) (nw : Nat) (jobs : List Job)
    (i : Nat) (s : SysState) (h : Inv nw jobs s) :
    Inv nw jobs (stepD handler nw jobs s (.workerStep i)) := by
  obtain ⟨q, c, ws, ph, tj, se, comp, tr, no⟩ := s
  cases ph with
  | created =>
    have hn : step handler nw jobs ⟨q, c, ws, .created, tj, se, comp, tr, no⟩
        (.workerStep i) = none := by
      simp [step]
    rw [stepD_eq_of_none hn]; exact h
  | waiting =>
    obtain ⟨hne, htj, hws, hse, hq, hcc, hck, hcount, hno⟩ := h
    dsimp only at htj hws hse hq hcc hck hcount hno
    subst hws
    by_cases hi : i < nw
    · have hget : (List.replicate nw Worker.fresh)[i]? = some Worker.fresh := by
        simp [List.getElem?_replicate, hi]
      cases q with
      | nil =>
        have hn : step handler nw jobs
            ⟨[], c, List.replicate nw Worker.fresh, .waiting, tj, se, comp, tr, no⟩
            (.workerStep i) = none := by
          simp [step, hget, fresh_status]
        rw [stepD_eq_of_none hn]
        exact ⟨hne, htj, rfl, hse, hq, hcc, hck, hcount, hno⟩
      | cons it rest =>
        cases it with
        | none => simp at hq
        | some j =>
          by_cases hh : handler j (tr.count j) = true
          · have hsd : stepD handler nw jobs
                ⟨some j :: rest, c, List.replicate nw Worker.fresh, .waiting, tj, se,
                  comp, tr, no⟩ (.workerStep i)
                = ⟨rest, c + 1, List.replicate nw Worker.fresh, .waiting, tj, se,
                    comp ++ [j], tr, no⟩ := by
              simp [stepD, step, hget, fresh_status, hh]
            rw [hsd]
            simp only [List.all_cons, Bool.and_eq_true] at hq
            refine ⟨hne, htj, rfl, hse, hq.2, ?_, ?_, ?_, hno⟩
            · simp [hcc]
            · dsimp only
              simp only [List.length_cons] at hck
              omega
            · intro j'
              dsimp only
              have hcnt := hcount j'
              rw [count_cons_some] at hcnt
              rw [count_append_one]
              omega
          · have hsd : stepD handler nw jobs
                ⟨some j :: rest, c, List.replicate nw Worker.fresh, .waiting, tj, se,
                  comp, tr, no⟩ (.workerStep i)
                = ⟨rest ++ [some j], c, List.replicate nw Worker.fresh, .waiting, tj, se,
                    comp, tr ++ [j], no⟩ := by
              simp [stepD, step, hget, fresh_status, hh]
            rw [hsd]
            simp only [List.all_cons, Bool.and_eq_true] at hq
            refine ⟨hne, htj, rfl, hse, ?_, hcc, ?_, ?_, hno⟩
            · simp [List.all_append, hq.2]
            · dsimp only
              simp only [List.length_cons] at hck
              simp only [List.length_append, List.length_singleton]
              omega
            · intro j'
              dsimp only
              have hcnt := hcount j'
              rw [count_cons_some] at hcnt
              rw [count_append_some]
              omega
    · have hget : (List.replicate nw Worker.fresh)[i]? = none := by
        simp [List.getElem?_replicate, hi]
      have hn : step handler nw jobs
          ⟨q, c, List.replicate nw Worker.fresh, .waiting, tj, se, comp, tr, no⟩
          (.workerStep i) = none := by
        simp [step, hget]
      rw [stepD_eq_of_none hn]
      exact ⟨hne, htj, rfl, hse, hq, hcc, hck, hcount, hno⟩
  | joining =>
    obtain ⟨hne, htj, hc, hcc, hcount, hq, hse, hlen, hsum, hwinv, hno⟩ := h
    dsimp only at htj hc hcc hcount hq hse hlen hsum hwinv hno
    cases hget : ws[i]? with
    | none =>
      have hn : step handler nw jobs ⟨q, c, ws, .joining, tj, se, comp, tr, no⟩
          (.workerStep i) = none := by
        simp [step, hget]
      rw [stepD_eq_of_none hn]
      exact ⟨hne, htj, hc, hcc, hcount, hq, hse, hlen, hsum, hwinv, hno⟩
    | some w =>
      by_cases hrun : w.status = .running
      · cases q with
        | nil =>
          have hn : step handler nw jobs ⟨[], c, ws, .joining, tj, se, comp, tr, no⟩
              (.workerStep i) = none := by
            simp [step, hget, hrun]
          rw [stepD_eq_of_none hn]
          exact ⟨hne, htj, hc, hcc, hcount, hq, hse, hlen, hsum, hwinv, hno⟩
        | cons it rest =>
          have hit : it = Option.none := by
            simp only [List.all_cons, Bool.and_eq_true, decide_eq_true_eq] at hq
            exact hq.1
          subst hit
          have hsd : stepD handler nw jobs
              ⟨Option.none :: rest, c, ws, .joining, tj, se, comp, tr, no⟩ (.workerStep i)
              = ⟨rest, c,
                  ws.set i { w with status := .terminated, sentinels := w.sentinels + 1, engineDisposed := true },
                  .joining, tj, se, comp, tr, no⟩ := by
            simp [stepD, step, hget, hrun]
          rw [hsd]
          have hwmem : w ∈ ws := mem_of_getElemQ ws i w hget
          obtain ⟨hacq, hcase⟩ := hwinv w hwmem
          have hsent0 : w.sentinels = 0 := by
            rcases hcase with ⟨_, h0, _⟩ | ⟨hterm, _, _⟩
            · exact h0
            · rw [hrun] at hterm; cases hterm
          have hss := sentSum_set ws i w
            { w with status := .terminated, sentinels := w.sentinels + 1, engineDisposed := true } hget
          dsimp only at hss
          simp only [List.all_cons, Bool.and_eq_true] at hq
          refine ⟨hne, htj, hc, hcc, hcount, hq.2, hse, ?_, ?_, ?_, hno⟩
          · simp [hlen]
          · dsimp only
            simp only [List.length_cons] at hsum
            omega
          · refine forall_mem_set ws i _ hwinv ⟨hacq, Or.inr ⟨rfl, ?_, rfl⟩⟩
            simp [hsent0]
      · have hn : step handler nw jobs ⟨q, c, ws, .joining, tj, se, comp, tr, no⟩
            (.workerStep i) = none := by
          simp [step, hget, hrun]
        rw [stepD_eq_of_none hn]
        exact ⟨hne, htj, hc, hcc, hcount, hq, hse, hlen, hsum, hwinv, hno⟩
  | done =>
    have hn : step handler nw jobs ⟨q, c, ws, .done, tj, se, comp, tr, no⟩
        (.workerStep i) = none := by
      simp [step]
    rw [stepD_eq_of_none hn]; exact h

theorem inv_stepD_push (handler : Job → Nat → Bool) (nw : Nat) (jobs : List Job)
    (s : SysState) (h : Inv nw jobs s) :
    Inv nw jobs (stepD handler nw jobs s .pushSentinels) := by
  obtain ⟨q, c, ws, ph, tj, se, comp, tr, no⟩ := s
  cases ph with
  | created =>
    have hn : step handler nw jobs ⟨q, c, ws, .created, tj, se, comp, tr, no⟩
        .pushSentinels = none := by
      simp [step]
    rw [stepD_eq_of_none hn]; exact h
  | waiting =>
    obtain ⟨hne, htj, hws, hse, hq, hcc, hck, hcount, hno⟩ := h
    dsimp only at htj hws hse hq hcc hck hcount hno
    subst hws
    by_cases hen : tj ≤ c
    · have hq0 : q = [] := by
        have hlen : q.length = 0 := by omega
        exact List.length_eq_zero.mp hlen
      subst hq0
      have hc : c = jobs.length := by
        simp only [List.length_nil] at hck
        omega
      have hsd : stepD handler nw jobs
          ⟨[], c, List.replicate nw Worker.fresh, .waiting, tj, se, comp, tr, no⟩
          .pushSentinels
          = ⟨List.replicate nw Option.none, c, List.replicate nw Worker.fresh,
              .joining, tj, se + nw, comp, tr, no⟩ := by
        simp [stepD, step, hen]
      rw [hsd]
      refine ⟨hne, htj, hc, hcc, ?_, ?_, ?_, ?_, ?_, ?_, hno⟩
      · intro j
        dsimp only
        have hcnt := hcount j
        simp only [List.count_nil] at hcnt
        omega
      · simp
      · simp [hse]
      · simp
      · simp [sentSum_replicate_fresh]
      · intro w hw
        rw [List.eq_of_mem_replicate hw]
        exact winv_fresh
    · have hn : step handler nw jobs
          ⟨q, c, List.replicate nw Worker.fresh, .waiting, tj, se, comp, tr, no⟩
          .pushSentinels = none := by
        simp [step, hen]
      rw [stepD_eq_of_none hn]
      exact ⟨hne, htj, rfl, hse, hq, hcc, hck, hcount, hno⟩
  | joining =>
    have hn : step handler nw jobs ⟨q, c, ws, .joining, tj, se, comp, tr, no⟩
        .pushSentinels = none := by
      simp [step]
    rw [stepD_eq_of_none hn]; exact h
  | done =>
    have hn : step handler nw jobs ⟨q, c, ws, .done, tj, se, comp, tr, no⟩
        .pushSentinels = none := by
      simp [step]
    rw [stepD_eq_of_none hn]; exact h

theorem inv_stepD_join (handler : Job → Nat → Bool) (nw : Nat) (jobs : List Job)
    (s : SysState) (h : Inv nw jobs s) :
    Inv nw jobs (stepD handler nw jobs s .joinWorkers) := by
  obtain ⟨q, c, ws, ph, tj, se, comp, tr, no⟩ := s
  cases ph with
  | created =>
    have hn : step handler nw jobs ⟨q, c, ws, .created, tj, se, comp, tr, no⟩
        .joinWorkers = none := by
      simp [step]
    rw [stepD_eq_of_none hn]; exact h
  | waiting =>
    have hn : step handler nw jobs ⟨q, c, ws, .waiting, tj, se, comp, tr, no⟩
        .joinWorkers = none := by
      simp [step]
    rw [stepD_eq_of_none hn]; exact h
  | joining =>
    obtain ⟨hne, htj, hc, hcc, hcount, hq, hse, hlen, hsum, hwinv, hno⟩ := h
    dsimp only at htj hc hcc hcount hq hse hlen hsum hwinv hno
    by_cases hall : ws.all (·.status = .terminated) = true
    · have hsd : stepD handler nw jobs ⟨q, c, ws, .joining, tj, se, comp, tr, no⟩
          .joinWorkers = ⟨q, c, ws, .done, tj, se, comp, tr, no⟩ := by
        simp [stepD, step, hall]
      rw [hsd]
      refine Or.inr ⟨hne, htj, hc, hcc, hcount, hq, hse, hlen, hsum, ?_, hno⟩
      intro w hw
      refine ⟨?_, hwinv w hw⟩
      have := List.all_eq_true.mp hall w hw
      simpa using this
    · have hn : step handler nw jobs ⟨q, c, ws, .joining, tj, se, comp, tr, no⟩
          .joinWorkers = none := by
        simp [step, hall]
      rw [stepD_eq_of_none hn]
      exact ⟨hne, htj, hc, hcc, hcount, hq, hse, hlen, hsum, hwinv, hno⟩
  | done =>
    have hn : step handler nw jobs ⟨q, c, ws, .done, tj, se, comp, tr, no⟩
        .joinWorkers = none := by
      simp [step]
    rw [stepD_eq_of_none hn]; exact h

/-- The invariant is preserved by every step of every process. -/
theorem inv_stepD (handler : Job → Nat → Bool) (nw : Nat) (jobs : List Job)
    (s : SysState) (l : Label) (h : Inv nw jobs s) :
    Inv nw jobs (stepD handler nw jobs s l) := by
  cases l with
  | managerRun => exact inv_stepD_managerRun handler nw jobs s h
  | workerStep i => exact inv_stepD_worker handler nw jobs i s h
  | pushSentinels => exact inv_stepD_push handler nw jobs s h
  | joinWorkers => exact inv_stepD_join handler nw jobs s h

/-- The invariant holds in every state reachable from a state satisfying it. -/
theorem inv_runSys (handler : Job → Nat → Bool) (nw : Nat) (jobs : List Job)
    (sched : List Label) (s : SysState) (h : Inv nw jobs s) :
    Inv nw jobs (runSys handler nw jobs sched s) := by
  induction sched generalizing s with
  | nil => exact h
  | cons l ls ih => exact ih _ (inv_stepD handler nw jobs s l h)

/-- The invariant holds initially. -/
theorem inv_init (nw : Nat) (jobs : List Job) : Inv nw jobs initState := rfl

/-- What the invariant says about a state in which `run()` has returned. -/
theorem inv_done_cases (nw : Nat) (jobs : List Job) (s : SysState)
    (hinv : Inv nw jobs s) (hph : s.phase = .done) :
    (jobs = [] ∧ s = zeroJobDone) ∨
    (jobs ≠ [] ∧ s.totalJobs = jobs.length ∧ s.counter = jobs.length ∧
     s.counter = s.completed.length ∧
     (∀ j, s.completed.count j = jobs.count j) ∧
     s.queue.all (· = Option.none) = true ∧
     s.sentinelsEnqueued = nw ∧
     s.workers.length = nw ∧
     s.queue.length + sentSum s.workers = nw ∧
     (∀ w ∈ s.workers, w.status = .terminated ∧ WInv w) ∧
     s.noticeEmitted = false) := by
  obtain ⟨q, c, ws, ph, tj, se, comp, tr, no⟩ := s
  cases ph with
  | created => simp at hph
  | waiting => simp at hph
  | joining => simp at hph
  | done => exact hinv

/-- With no jobs enumerated, the only reachable states are the initial state
and the short-circuited final state. -/
theorem inv_nil_cases (nw : Nat) (s : SysState) (hinv : Inv nw [] s) :
    s = initState ∨ s = zeroJobDone := by
  obtain ⟨q, c, ws, ph, tj, se, comp, tr, no⟩ := s
  cases ph with
  | created => exact Or.inl hinv
  | waiting => exact absurd rfl hinv.1
  | joining => exact absurd rfl hinv.1
  | done =>
    rcases hinv with ⟨_, hz⟩ | ⟨hne, _⟩
    · exact Or.inr hz
    · exact absurd rfl hne

/-- In every reachable state the queue is either all real jobs or all
sentinels: a sentinel never precedes a real job. -/
theorem queue_shape (nw : Nat) (jobs : List Job) (s : SysState)
    (hinv : Inv nw jobs s) :
    (∀ x ∈ s.queue, x.isSome = true) ∨ (∀ x ∈ s.queue, x = Option.none) := by
  obtain ⟨q, c, ws, ph, tj, se, comp, tr, no⟩ := s
  cases ph with
  | created =>
    have := congrArg SysState.queue hinv
    dsimp only [initState] at this ⊢
    rw [this]
    exact Or.inl (by intro x hx; simp at hx)
  | waiting =>
    refine Or.inl ?_
    have hq := hinv.2.2.2.2.1
    dsimp only at hq
    intro x hx
    exact List.all_eq_true.mp hq x hx
  | joining =>
    refine Or.inr ?_
    have hq := hinv.2.2.2.2.2.1
    dsimp only at hq
    intro x hx
    have := List.all_eq_true.mp hq x hx
    simpa using this
  | done =>
    rcases hinv with ⟨_, hz⟩ | hfull
    · rw [congrArg SysState.queue hz]
      exact Or.inl (by intro x hx; simp [zeroJobDone, initState] at hx)
    · refine Or.inr ?_
      have hq := hfull.2.2.2.2.2.1
      dsimp only at hq
      intro x hx
      have := List.all_eq_true.mp hq x hx
      simpa using this

/-- A destroyed (unlinked) name no longer resolves. -/
theorem lookupSeg_unlink (st : ShmState) (name : String) :
    lookupSeg (unlinkSeg st name) name = Option.none := by
  induction st with
  | nil => rfl
  | cons p t ih =>
    simp only [unlinkSeg, List.filter_cons, decide_not] at ih ⊢
    by_cases hp : p.1 = name
    · simp only [hp, decide_True, Bool.not_true, Bool.false_eq_true, if_false]
      exact ih
    · simp only [hp, decide_False, Bool.not_false, if_true, lookupSeg, List.find?] at ih ⊢
      simp only [decide_False, ih]

theorem sum_replicate_nat (n m : Nat) : (List.replicate n m).sum = n * m := by
  induction n with
  | zero => simp
  | succ k ih => simp [List.replicate_succ, ih, Nat.succ_mul]; omega

theorem getD_eq_of_getElemQ (l : List Nat) (i r : Nat) (h : l[i]? = some r) :
    l.getD i 0 = r := by
  simp [List.getD, h]

theorem sum_set_getD_sub_one (l : List Nat) (i : Nat) (h1 : 1 ≤ l.getD i 0) :
    (l.set i (l.getD i 0 - 1)).sum + 1 = l.sum := by
  induction l generalizing i with
  | nil => simp [List.getD] at h1
  | cons a t ih =>
    cases i with
    | zero =>
      simp only [List.getD_cons_zero] at h1 ⊢
      simp only [List.set, List.sum_cons]
      omega
    | succ n =>
      simp only [List.getD_cons_succ] at h1 ⊢
      simp only [List.set, List.sum_cons]
      have := ih n h1
      omega

/-- Linear facts about the int32 wrap: its range, that it is the identity on
in-range values, and that it absorbs an inner wrap. -/
theorem wrap32_range (n : Int) : -2147483648 <= wrap32 n ∧ wrap32 n < 2147483648 := by
  unfold wrap32
  omega

/-- In-range values are stored unchanged by a `c_int`. -/
theorem wrap32_eq_self (n : Int) (h1 : -2147483648 <= n) (h2 : n < 2147483648) :
    wrap32 n = n := by
  unfold wrap32
  omega

/-- Wrapping an already wrapped value plus an offset wraps the plain sum. -/
theorem wrap32_add_wrap32 (x y : Int) : wrap32 (wrap32 x + y) = wrap32 (x + y) := by
  unfold wrap32
  omega

/-- The increment-protocol invariant is preserved by every step. -/
theorem ctrInv_stepD (T : Nat) (s : CtrState) (l : CtrLabel)
    (h : CtrInv T s) : CtrInv T (ctrStepD s l) := by
  obtain ⟨c, rem, lk⟩ := s
  obtain ⟨hle, hwr, hread, hheld⟩ := h
  dsimp only at hle hwr hread hheld
  cases l with
  | acquire i =>
    cases lk with
    | free =>
      cases hrem : rem[i]? with
      | none =>
        have hn : ctrStep ⟨c, rem, .free⟩ (.acquire i) = none := by
          simp [ctrStep, hrem]
        simp only [ctrStepD, hn, Option.getD_none]
        exact ⟨hle, hwr, hread, hheld⟩
      | some r =>
        cases r with
        | zero =>
          have hn : ctrStep ⟨c, rem, .free⟩ (.acquire i) = none := by
            simp [ctrStep, hrem]
          simp only [ctrStepD, hn, Option.getD_none]
          exact ⟨hle, hwr, hread, hheld⟩
        | succ r' =>
          have hstep : ctrStepD ⟨c, rem, .free⟩ (.acquire i) = ⟨c, rem, .held i⟩ := by
            simp [ctrStepD, ctrStep, hrem]
          rw [hstep]
          refine ⟨hle, hwr, ?_, ?_⟩
          · intro i' v hv; cases hv
          · intro i' hv
            cases hv
            rw [getD_eq_of_getElemQ rem i (r' + 1) hrem]
            omega
    | held j =>
      have hn : ctrStep ⟨c, rem, .held j⟩ (.acquire i) = none := by simp [ctrStep]
      simp only [ctrStepD, hn, Option.getD_none]
      exact ⟨hle, hwr, hread, hheld⟩
    | heldRead j v =>
      have hn : ctrStep ⟨c, rem, .heldRead j v⟩ (.acquire i) = none := by simp [ctrStep]
      simp only [ctrStepD, hn, Option.getD_none]
      exact ⟨hle, hwr, hread, hheld⟩
  | readVal i =>
    cases lk with
    | free =>
      have hn : ctrStep ⟨c, rem, .free⟩ (.readVal i) = none := by simp [ctrStep]
      simp only [ctrStepD, hn, Option.getD_none]
      exact ⟨hle, hwr, hread, hheld⟩
    | held j =>
      by_cases hij : j = i
      · subst hij
        have hstep : ctrStepD ⟨c, rem, .held j⟩ (.readVal j) = ⟨c, rem, .heldRead j c⟩ := by
          simp [ctrStepD, ctrStep]
        rw [hstep]
        refine ⟨hle, hwr, ?_, ?_⟩
        · intro i' v hv
          injection hv with h1 h2
          subst h1; subst h2
          exact ⟨rfl, hheld _ rfl⟩
        · intro i' hv; cases hv
      · have hn : ctrStep ⟨c, rem, .held j⟩ (.readVal i) = none := by
          simp [ctrStep, hij]
        simp only [ctrStepD, hn, Option.getD_none]
        exact ⟨hle, hwr, hread, hheld⟩
    | heldRead j v =>
      have hn : ctrStep ⟨c, rem, .heldRead j v⟩ (.readVal i) = none := by simp [ctrStep]
      simp only [ctrStepD, hn, Option.getD_none]
      exact ⟨hle, hwr, hread, hheld⟩
  | writeVal i =>
    cases lk with
    | free =>
      have hn : ctrStep ⟨c, rem, .free⟩ (.writeVal i) = none := by simp [ctrStep]
      simp only [ctrStepD, hn, Option.getD_none]
      exact ⟨hle, hwr, hread, hheld⟩
    | held j =>
      have hn : ctrStep ⟨c, rem, .held j⟩ (.writeVal i) = none := by simp [ctrStep]
      simp only [ctrStepD, hn, Option.getD_none]
      exact ⟨hle, hwr, hread, hheld⟩
    | heldRead j v =>
      by_cases hij : j = i
      · subst hij
        have hstep : ctrStepD ⟨c, rem, .heldRead j v⟩ (.writeVal j)
            = ⟨wrap32 (v + 1), rem.set j (rem.getD j 0 - 1), .free⟩ := by
          simp [ctrStepD, ctrStep]
        rw [hstep]
        obtain ⟨hvc, hpend⟩ := hread j v rfl
        subst hvc
        have hsumeq := sum_set_getD_sub_one rem j hpend
        refine ⟨?_, ?_, ?_, ?_⟩
        · dsimp only
          omega
        · dsimp only
          rw [hwr, wrap32_add_wrap32]
          have hcast : ((rem.set j (rem.getD j 0 - 1)).sum : Int) + 1 = (rem.sum : Int) := by
            exact_mod_cast hsumeq
          have harg : (T : Int) - (rem.sum : Int) + 1
              = (T : Int) - ((rem.set j (rem.getD j 0 - 1)).sum : Int) := by
            omega
          rw [harg]
        · intro i' v' hv; cases hv
        · intro i' hv; cases hv
      · have hn : ctrStep ⟨c, rem, .heldRead j v⟩ (.writeVal i) = none := by
          simp [ctrStep, hij]
        simp only [ctrStepD, hn, Option.getD_none]
        exact ⟨hle, hwr, hread, hheld⟩

/-- The increment-protocol invariant holds along any schedule. -/
theorem ctrInv_run (T : Nat) (sched : List CtrLabel) (s : CtrState)
    (h : CtrInv T s) : CtrInv T (ctrRun sched s) := by
  induction sched generalizing s with
  | nil => exact h
  | cons l ls ih => exact ih _ (ctrInv_stepD T s l h)

/-- Manager steps never write the counter. -/
theorem counter_manager_steps (handler : Job → Nat → Bool) (nw : Nat)
    (jobs : List Job) (s s' : SysState) (l : Label)
    (hl : l = .managerRun ∨ l = .pushSentinels ∨ l = .joinWorkers)
    (h : step handler nw jobs s l = some s') : s'.counter = s.counter := by
  rcases hl with rfl | rfl | rfl
  · simp only [step] at h
    split at h
    · split at h
      · obtain rfl := Option.some.inj h; rfl
      · obtain rfl := Option.some.inj h; rfl
    · cases h
  · simp only [step] at h
    split at h
    · obtain rfl := Option.some.inj h; rfl
    · cases h
  · simp only [step] at h
    split at h
    · obtain rfl := Option.some.inj h; rfl
    · cases h

/-! ## Claim theorems -/

/-- Claim C1 (functional correctness).  For every job set of size `k ≥ 0`
enqueued by `create_jobs` with a `process_job` handler that never raises,
after `BaseManager.run(worker_class)` returns — i.e. in any interleaving that
reaches the `done` phase — the shared `progress_counter` equals `k` and every
started worker process has terminated (been joined). -/
theorem run_completion (handler : Job → Nat → Bool) (nw : Nat) (jobs : List Job)
    (sched : List Label)
    (_hnoraise : ∀ j a, handler j a = true)
    (hdone : (runSys handler nw jobs sched initState).phase = .done) :
    (runSys handler nw jobs sched initState).counter = jobs.length ∧
    (∀ w ∈ (runSys handler nw jobs sched initState).workers,
      w.status = .terminated) := by
  have hinv := inv_runSys handler nw jobs sched initState (inv_init nw jobs)
  rcases inv_done_cases nw jobs _ hinv hdone with ⟨hnil, hzs⟩ | hfull
  · subst hnil
    rw [hzs]
    refine ⟨rfl, ?_⟩
    intro w hw
    simp [zeroJobDone, initState] at hw
  · exact ⟨hfull.2.2.1, fun w hw => (hfull.2.2.2.2.2.2.2.2.2.1 w hw).1⟩

/-- Witness for `run_completion`: one worker, one job, a schedule that
completes; the counter ends at 1 and the worker has terminated. -/
theorem run_completion_witness :
    (runSys (fun _ _ => true) 1 [7]
      [.managerRun, .workerStep 0, .pushSentinels, .workerStep 0, .joinWorkers]
      initState).counter = 1 ∧
    (∀ w ∈ (runSys (fun _ _ => true) 1 [7]
      [.managerRun, .workerStep 0, .pushSentinels, .workerStep 0, .joinWorkers]
      initState).workers, w.status = .terminated) :=
  run_completion (fun _ _ => true) 1 [7]
    [.managerRun, .workerStep 0, .pushSentinels, .workerStep 0, .joinWorkers]
    (fun _ _ => rfl) (by decide)

/-- Claim C2 (error handling).  A `process_job` failure re-enqueues exactly that
Job unchanged at the back of the queue, does not touch the progress counter,
and leaves the worker running (it keeps pulling items); and a Job that occurs
once in the job set — in particular one whose handler fails finitely many
times and then succeeds — is counted exactly once in any run that completes:
never zero times, never more than once. -/
theorem failure_requeue_and_exactly_once (handler : Job → Nat → Bool)
    (nw : Nat) (jobs : List Job) :
    (∀ (s : SysState) (i : Nat) (w : Worker) (j : Job) (rest : List Item),
      (s.phase = .waiting ∨ s.phase = .joining) →
      s.workers[i]? = some w → w.status = .running →
      s.queue = some j :: rest →
      handler j (s.tries.count j) = false →
      step handler nw jobs s (.workerStep i) =
        some { s with queue := rest ++ [some j], tries := s.tries ++ [j] }) ∧
    (∀ (j : Job) (sched : List Label),
      jobs.count j = 1 →
      (runSys handler nw jobs sched initState).phase = .done →
      (runSys handler nw jobs sched initState).completed.count j = 1) := by
  constructor
  · intro s i w j rest hph hget hrun hq hh
    obtain ⟨q, c, ws, ph, tj, se, comp, tr, no⟩ := s
    dsimp only at hget hq hh ⊢
    subst hq
    simp [step, hph, hget, hrun, hh]
  · intro j sched hcnt hdone
    have hinv := inv_runSys handler nw jobs sched initState (inv_init nw jobs)
    rcases inv_done_cases nw jobs _ hinv hdone with ⟨hnil, _⟩ | hfull
    · rw [hnil] at hcnt
      simp at hcnt
    · rw [hfull.2.2.2.2.1 j, hcnt]

/-- Witness for `failure_requeue_and_exactly_once`: a handler that raises on
the first attempt at a job and succeeds afterwards; job 5 is re-enqueued unchanged
with counter untouched, and a completing run counts it exactly once. -/
theorem failure_requeue_witness :
    (step (fun _ a => decide (0 < a)) 1 [5]
        ⟨[some 5], 0, [Worker.fresh], .waiting, 1, 0, [], [], false⟩ (.workerStep 0) =
      some ⟨[some 5], 0, [Worker.fresh], .waiting, 1, 0, [], [5], false⟩) ∧
    (runSys (fun _ a => decide (0 < a)) 1 [5]
        [.managerRun, .workerStep 0, .workerStep 0, .pushSentinels,
         .workerStep 0, .joinWorkers]
        initState).completed.count 5 = 1 := by
  constructor
  · exact (failure_requeue_and_exactly_once (fun _ a => decide (0 < a)) 1 [5]).1
      ⟨[some 5], 0, [Worker.fresh], .waiting, 1, 0, [], [], false⟩ 0 Worker.fresh 5 []
      (Or.inl rfl) rfl rfl rfl (by decide)
  · exact (failure_requeue_and_exactly_once (fun _ a => decide (0 < a)) 1 [5]).2
      5 [.managerRun, .workerStep 0, .workerStep 0, .pushSentinels,
         .workerStep 0, .joinWorkers] (by decide) (by decide)

/-- Claim C3 (invariants).  In every completing run with at least one job:
exactly `num_workers` sentinels were ever enqueued; every started worker has
terminated having consumed exactly one sentinel; in every reachable state the
queue never has a sentinel in front of a real job (sentinels go in only after
all real jobs); and a worker that has consumed its sentinel has no further
step — it never processes a job afterwards. -/
theorem sentinel_conservation (handler : Job → Nat → Bool) (nw : Nat)
    (jobs : List Job) (sched : List Label) (hk : jobs ≠ [])
    (hdone : (runSys handler nw jobs sched initState).phase = .done) :
    (runSys handler nw jobs sched initState).sentinelsEnqueued = nw ∧
    (runSys handler nw jobs sched initState).workers.length = nw ∧
    (∀ w ∈ (runSys handler nw jobs sched initState).workers,
      w.status = .terminated ∧ w.sentinels = 1) ∧
    (∀ sched' : List Label,
      (∀ x ∈ (runSys handler nw jobs sched' initState).queue, x.isSome = true) ∨
      (∀ x ∈ (runSys handler nw jobs sched' initState).queue, x = Option.none)) ∧
    (∀ (s : SysState) (i : Nat) (w : Worker), s.workers[i]? = some w →
      w.status = .terminated → step handler nw jobs s (.workerStep i) = none) := by
  have hinv := inv_runSys handler nw jobs sched initState (inv_init nw jobs)
  rcases inv_done_cases nw jobs _ hinv hdone with ⟨hnil, _⟩ | hfull
  · exact absurd hnil hk
  · obtain ⟨hne, htj, hc, hcc, hcount, hq, hse, hlen, hsum, hterm, hno⟩ := hfull
    refine ⟨hse, hlen, ?_, ?_, ?_⟩
    · intro w hw
      obtain ⟨hst, hacq, hwi⟩ := hterm w hw
      refine ⟨hst, ?_⟩
      rcases hwi with ⟨hr, _, _⟩ | ⟨_, hs1, _⟩
      · rw [hst] at hr; cases hr
      · exact hs1
    · intro sched'
      exact queue_shape nw jobs _ (inv_runSys handler nw jobs sched' initState (inv_init nw jobs))
    · intro s i w hget hterm'
      by_cases hph : s.phase = .waiting ∨ s.phase = .joining
      · simp [step, hph, hget, hterm']
      · simp [step, hph]

/-- Witness for `sentinel_conservation`: one worker, one job, a completing
schedule; one sentinel was enqueued and the worker consumed it. -/
theorem sentinel_conservation_witness :
    (runSys (fun _ _ => true) 1 [4]
      [.managerRun, .workerStep 0, .pushSentinels, .workerStep 0, .joinWorkers]
      initState).sentinelsEnqueued = 1 ∧
    (∀ w ∈ (runSys (fun _ _ => true) 1 [4]
      [.managerRun, .workerStep 0, .pushSentinels, .workerStep 0, .joinWorkers]
      initState).workers, w.status = .terminated ∧ w.sentinels = 1) :=
  ⟨(sentinel_conservation (fun _ _ => true) 1 [4]
      [.managerRun, .workerStep 0, .pushSentinels, .workerStep 0, .joinWorkers]
      (by simp) (by decide)).1,
   (sentinel_conservation (fun _ _ => true) 1 [4]
      [.managerRun, .workerStep 0, .pushSentinels, .workerStep 0, .joinWorkers]
      (by simp) (by decide)).2.2.1⟩

/-- Claim C4 (functional correctness).  If `create_jobs` yields zero jobs,
`BaseManager.run` prints the "No jobs to process." notice and returns in that
same manager step; and along any schedule no worker process is started, no
sentinel is enqueued, and the progress counter is never mutated. -/
theorem zero_jobs_short_circuit (handler : Job → Nat → Bool) (nw : Nat)
    (sched : List Label) :
    step handler nw [] initState .managerRun = some zeroJobDone ∧
    zeroJobDone.noticeEmitted = true ∧
    zeroJobDone.phase = .done ∧
    (runSys handler nw [] sched initState).workers = [] ∧
    (runSys handler nw [] sched initState).sentinelsEnqueued = 0 ∧
    (runSys handler nw [] sched initState).counter = 0 := by
  have hinv := inv_runSys handler nw [] sched initState (inv_init nw [])
  rcases inv_nil_cases nw _ hinv with hs | hs <;>
    exact ⟨by simp [step, initState, zeroJobDone], rfl, rfl,
      by rw [hs]; rfl, by rw [hs]; rfl, by rw [hs]; rfl⟩

/-- Claim C5 counterexample.  The source counter `mp.Value('i', 0)` is a
shared 32-bit `c_int`: at the stored value `2^31 - 1` the locked `+= 1`
(read `2147483647`, store the int32 wrap of `2147483647 + 1`) silently stores
`-2^31` — the write does not add exactly 1 and the stored value *decreases*,
so the unconditional incremented-by-exactly-1 / never-decremented /
exactly-`N*M` claim is false of the program. -/
theorem counter_wrap_counterexample :
    ctrStep ⟨2147483647, [1], .heldRead 0 2147483647⟩ (.writeVal 0) =
      some ⟨-2147483648, [0], .free⟩ ∧
    (-2147483648 : Int) < 2147483647 ∧
    (-2147483648 : Int) ≠ 2147483647 + 1 := by
  refine ⟨?_, by decide, by decide⟩
  simp [ctrStep, wrap32]

/-- Claim C5 amended (invariants).  The shared progress counter
(`mp.Value('i', 0)`, a 32-bit `c_int`) is initialized to 0; it is read
without mutation by the steps of the manager (start, sentinel push after the
polling loop, join) and by the lock-protocol acquire and read steps; each
successful job completion performs a locked write that stores the int32 wrap
of the read value plus one — exactly `+ 1`, hence never a decrease, whenever
the stored value is below `2^31 - 1`, while at `2^31 - 1` it wraps to
`-2^31`; and the increment is atomic under concurrent writers: `N` workers
each performing `M` increments concurrently end, in every interleaving that
finishes the work, with the counter at exactly `wrap32 (N*M)` — equal to
`N*M` whenever `N*M < 2^31`, which covers all of
`N, M ∈ {1,4,16} × {1,100,10000}`. -/
theorem counter_invariants_wrapped (handler : Job → Nat → Bool) (nw : Nat)
    (jobs : List Job) :
    initState.counter = 0 ∧
    (∀ N M : Nat, (ctrInit N M).counter = 0) ∧
    (∀ (s s' : SysState) (l : Label),
      l = .managerRun ∨ l = .pushSentinels ∨ l = .joinWorkers →
      step handler nw jobs s l = some s' → s'.counter = s.counter) ∧
    (∀ (s s' : CtrState) (i : Nat),
      ctrStep s (.acquire i) = some s' → s'.counter = s.counter) ∧
    (∀ (s s' : CtrState) (i : Nat),
      ctrStep s (.readVal i) = some s' → s'.counter = s.counter) ∧
    (∀ (s s' : CtrState) (i : Nat) (v : Int), s.lock = .heldRead i v →
      ctrStep s (.writeVal i) = some s' →
      s'.counter = wrap32 (v + 1) ∧
      (-2147483648 <= v → v < 2147483647 → s'.counter = v + 1)) ∧
    (∀ (N M : Nat) (sched : List CtrLabel),
      (ctrRun sched (ctrInit N M)).remaining.sum = 0 →
      (ctrRun sched (ctrInit N M)).counter = wrap32 ((N * M : Nat) : Int) ∧
      (N * M < 2147483648 →
        (ctrRun sched (ctrInit N M)).counter = ((N * M : Nat) : Int))) := by
  refine ⟨rfl, fun N M => rfl, ?_, ?_, ?_, ?_, ?_⟩
  · exact fun s s' l hl h => counter_manager_steps handler nw jobs s s' l hl h
  · intro s s' i h
    simp only [ctrStep] at h
    split at h
    · obtain rfl := Option.some.inj h; rfl
    · cases h
  · intro s s' i h
    simp only [ctrStep] at h
    split at h
    · split at h
      · obtain rfl := Option.some.inj h; rfl
      · cases h
    · cases h
  · intro s s' i v hlock h
    simp only [ctrStep, hlock] at h
    obtain rfl := Option.some.inj h
    refine ⟨rfl, ?_⟩
    intro h1 h2
    exact wrap32_eq_self (v + 1) (by omega) (by omega)
  · intro N M sched hdoneAll
    have hinit : CtrInv (N * M) (ctrInit N M) := by
      refine ⟨?_, ?_, ?_, ?_⟩
      · simp [ctrInit, sum_replicate_nat]
      · show (0 : Int) = wrap32 (((N * M : Nat) : Int) - ((List.replicate N M).sum : Int))
        rw [sum_replicate_nat]
        have hz : ((N * M : Nat) : Int) - ((N * M : Nat) : Int) = 0 := by omega
        rw [hz]
        decide
      · intro i v hv; cases hv
      · intro i hv; cases hv
    have hinv := ctrInv_run (N * M) sched (ctrInit N M) hinit
    obtain ⟨hle, hwr, _, _⟩ := hinv
    rw [hdoneAll] at hwr
    have hwr0 : (ctrRun sched (ctrInit N M)).counter = wrap32 ((N * M : Nat) : Int) := by
      rw [hwr]
      norm_num
    refine ⟨hwr0, ?_⟩
    intro hlt
    rw [hwr0]
    have h2 : ((N * M : Nat) : Int) < 2147483648 := by exact_mod_cast hlt
    exact wrap32_eq_self _ (by omega) h2

/-- Witness for `counter_invariants_wrapped`: two workers doing one
lock-protected increment each end at exactly 2, and a concrete locked write
below the wrap boundary adds exactly one. -/
theorem counter_invariants_wrapped_witness :
    ((ctrRun [.acquire 0, .readVal 0, .writeVal 0, .acquire 1, .readVal 1, .writeVal 1]
        (ctrInit 2 1)).counter = wrap32 ((2 * 1 : Nat) : Int) ∧
      (2 * 1 < 2147483648 →
        (ctrRun [.acquire 0, .readVal 0, .writeVal 0, .acquire 1, .readVal 1, .writeVal 1]
          (ctrInit 2 1)).counter = ((2 * 1 : Nat) : Int))) ∧
    ((⟨6, [0], .free⟩ : CtrState).counter = wrap32 (5 + 1) ∧
      (-2147483648 <= (5 : Int) → (5 : Int) < 2147483647 →
        (⟨6, [0], .free⟩ : CtrState).counter = 5 + 1)) :=
  ⟨(counter_invariants_wrapped (fun _ _ => true) 1 []).2.2.2.2.2.2 2 1
      [.acquire 0, .readVal 0, .writeVal 0, .acquire 1, .readVal 1, .writeVal 1]
      (by decide),
   (counter_invariants_wrapped (fun _ _ => true) 1 []).2.2.2.2.2.1
      ⟨5, [1], .heldRead 0 5⟩ ⟨6, [0], .free⟩ 0 5 rfl (by decide)⟩

/-- Claim C6 counterexample.  The claim says the worker releases its engine on
*every* exit path of its loop, including when an unhandled error (raised
outside the `process_job` try, e.g. by a queue operation) terminates the
loop.  On the script whose single `queue.get` raises, the loop exits by an
unhandled error with the engine acquired but *not* disposed — there is no
`try/finally` around the loop in `BaseWorker.run`. -/
theorem engine_release_counterexample :
    (workerRunScript (fun _ => true) [.raiseErr] 0).exited = true ∧
    (workerRunScript (fun _ => true) [.raiseErr] 0).unhandled = true ∧
    (workerRunScript (fun _ => true) [.raiseErr] 0).engineAcquired = true ∧
    (workerRunScript (fun _ => true) [.raiseErr] 0).engineDisposed = false := by
  decide

/-- Claim C6 amended.  The worker acquires its engine on entry, and disposes
it exactly on the normal (sentinel) exit path of its loop; when an unhandled
error terminates the loop, the engine is *not* disposed. -/
theorem engine_release_paths (handler : Job → Bool) (script : List GetOutcome)
    (acc : Nat) :
    (workerRunScript handler script acc).engineAcquired = true ∧
    ((workerRunScript handler script acc).exited = true →
      ((workerRunScript handler script acc).engineDisposed = true ↔
        (workerRunScript handler script acc).unhandled = false)) := by
  induction script generalizing acc with
  | nil =>
    refine ⟨rfl, ?_⟩
    intro hx
    cases hx
  | cons o rest ih =>
    cases o with
    | raiseErr =>
      refine ⟨rfl, ?_⟩
      intro _
      simp [workerRunScript]
    | item it =>
      cases it with
      | none =>
        refine ⟨rfl, ?_⟩
        intro _
        simp [workerRunScript]
      | some j =>
        by_cases hh : handler j = true
        · simpa [workerRunScript, hh] using ih (acc + 1)
        · simpa [workerRunScript, hh] using ih acc

/-- Witness for `engine_release_paths`: the sentinel script exits normally
with the engine disposed. -/
theorem engine_release_paths_witness :
    (workerRunScript (fun _ => true) [.item Option.none] 0).engineAcquired = true ∧
    ((workerRunScript (fun _ => true) [.item Option.none] 0).engineDisposed = true ↔
      (workerRunScript (fun _ => true) [.item Option.none] 0).unhandled = false) :=
  ⟨(engine_release_paths (fun _ => true) [.item Option.none] 0).1,
   (engine_release_paths (fun _ => true) [.item Option.none] 0).2 rfl⟩

/-- Claim C7 (algebraic/relational).  Publishing a payload allocates a named
segment created with size exactly the serialized byte length and stores those
bytes; fetching by the returned name then yields a value deep-equal to the
original payload, for any payload whose serialization round-trips (the
serializer is the Python `pickle` module, an external stdlib collaborator whose
round-trip property is the hypothesis `hrt`). -/
theorem shm_roundtrip {α : Type} (dumps : α → List Nat)
    (loads : List Nat → Option α) (st : ShmState) (data : α) (name : String)
    (hrt : ∀ x, loads (dumps x) = some x)
    (hfree : lookupSeg st name = Option.none) :
    serialize_to_shared_memory dumps st data name =
      Except.ok ((name, dumps data) :: st, name, (dumps data).length) ∧
    (deserialize_from_shared_memory loads ((name, dumps data) :: st) name).result =
      Except.ok data := by
  constructor
  · simp [serialize_to_shared_memory, hfree]
  · simp [deserialize_from_shared_memory, lookupSeg, List.find?, hrt data]

/-- Witness for `shm_roundtrip` on a concrete payload. -/
theorem shm_roundtrip_witness :
    serialize_to_shared_memory (fun (x : List Nat) => x) [] [1, 2, 3] "seg" =
      Except.ok ([("seg", [1, 2, 3])], "seg", 3) ∧
    (deserialize_from_shared_memory (fun b => some b)
        [("seg", [1, 2, 3])] "seg").result = Except.ok [1, 2, 3] :=
  shm_roundtrip (fun x => x) (fun b => some b) [] [1, 2, 3] "seg"
    (fun _ => rfl) rfl

/-- Claim C8 (error handling).  `deserialize_from_shared_memory` releases its
local attachment (`shm.close()` in the `finally`) whenever it attached,
whether reading/deserialization succeeds or fails; fetching a never-created
name yields the defined `FileNotFoundError`; fetching a destroyed (unlinked)
name likewise; and a deserialization failure surfaces as a defined error
with the attachment still released — corrupt data is never returned. -/
theorem fetch_detach_and_errors {α : Type} (loads : List Nat → Option α)
    (st : ShmState) (name : String) :
    ((deserialize_from_shared_memory loads st name).attached = true →
      (deserialize_from_shared_memory loads st name).closed = true) ∧
    (lookupSeg st name = Option.none →
      (deserialize_from_shared_memory loads st name).result =
        Except.error PyError.fileNotFound) ∧
    ((deserialize_from_shared_memory loads (unlinkSeg st name) name).result =
      Except.error PyError.fileNotFound) ∧
    (∀ bytes, lookupSeg st name = some bytes → loads bytes = Option.none →
      (deserialize_from_shared_memory loads st name).result =
        Except.error PyError.unpicklingError ∧
      (deserialize_from_shared_memory loads st name).closed = true) := by
  refine ⟨?_, ?_, ?_, ?_⟩
  · cases hl : lookupSeg st name with
    | none => simp [deserialize_from_shared_memory, hl]
    | some bytes =>
      cases hb : loads bytes <;> simp [deserialize_from_shared_memory, hl, hb]
  · intro hl
    simp [deserialize_from_shared_memory, hl]
  · simp [deserialize_from_shared_memory, lookupSeg_unlink]
  · intro bytes hl hb
    simp [deserialize_from_shared_memory, hl, hb]

/-- Witness for `fetch_detach_and_errors`: a stored segment whose bytes do
not deserialize is fetched — the error is the defined one and the attachment
was released; a missing name gives `FileNotFoundError`. -/
theorem fetch_detach_witness :
    ((deserialize_from_shared_memory (fun _ => (Option.none : Option Nat))
        [("a", [0])] "a").result = Except.error PyError.unpicklingError ∧
      (deserialize_from_shared_memory (fun _ => (Option.none : Option Nat))
        [("a", [0])] "a").closed = true) ∧
    (deserialize_from_shared_memory (fun _ => (Option.none : Option Nat))
        [("a", [0])] "b").result = Except.error PyError.fileNotFound :=
  ⟨(fetch_detach_and_errors (fun _ => (Option.none : Option Nat)) [("a", [0])] "a").2.2.2
      [0] rfl rfl,
   (fetch_detach_and_errors (fun _ => (Option.none : Option Nat)) [("a", [0])] "b").2.1 rfl⟩

/-- One `nw = 0` step keeps the counter at 0 and the manager at or before its
polling loop. -/
theorem nw_zero_step (handler : Job → Nat → Bool) (jobs : List Job)
    (hk : jobs ≠ []) (s : SysState) (l : Label)
    (hinv : Inv 0 jobs s) (hc0 : s.counter = 0)
    (hph : s.phase = .created ∨ s.phase = .waiting) :
    (stepD handler 0 jobs s l).counter = 0 ∧
    ((stepD handler 0 jobs s l).phase = .created ∨
     (stepD handler 0 jobs s l).phase = .waiting) := by
  obtain ⟨q, c, ws, ph, tj, se, comp, tr, no⟩ := s
  dsimp only at hc0 hph
  subst hc0
  cases ph with
  | created =>
    cases l with
    | managerRun =>
      have hj : ¬ jobs.length = 0 := by
        simpa using fun hnil => hk (List.length_eq_zero.mp hnil)
      have hinit := hinv
      rw [hinit]
      have hstep : stepD handler 0 jobs initState .managerRun =
          { initState with
            phase := .waiting
            totalJobs := jobs.length
            queue := jobs.map some
            workers := List.replicate 0 Worker.fresh } := by
        simp [stepD, step, hj, initState]
      rw [hstep]
      exact ⟨rfl, Or.inr rfl⟩
    | workerStep i =>
      have hn : step handler 0 jobs ⟨q, 0, ws, .created, tj, se, comp, tr, no⟩
          (.workerStep i) = none := by
        simp [step]
      rw [stepD_eq_of_none hn]
      exact ⟨rfl, Or.inl rfl⟩
    | pushSentinels =>
      have hn : step handler 0 jobs ⟨q, 0, ws, .created, tj, se, comp, tr, no⟩
          .pushSentinels = none := by
        simp [step]
      rw [stepD_eq_of_none hn]
      exact ⟨rfl, Or.inl rfl⟩
    | joinWorkers =>
      have hn : step handler 0 jobs ⟨q, 0, ws, .created, tj, se, comp, tr, no⟩
          .joinWorkers = none := by
        simp [step]
      rw [stepD_eq_of_none hn]
      exact ⟨rfl, Or.inl rfl⟩
  | waiting =>
    obtain ⟨hne, htj, hws, hse, hq, hcc, hck, hcount, hno⟩ := hinv
    dsimp only at htj hws
    subst hws
    cases l with
    | managerRun =>
      have hn : step handler 0 jobs
          ⟨q, 0, List.replicate 0 Worker.fresh, .waiting, tj, se, comp, tr, no⟩
          .managerRun = none := by
        simp [step]
      rw [stepD_eq_of_none hn]
      exact ⟨rfl, Or.inr rfl⟩
    | workerStep i =>
      have hget : (List.replicate 0 Worker.fresh)[i]? = none := by simp
      have hn : step handler 0 jobs
          ⟨q, 0, List.replicate 0 Worker.fresh, .waiting, tj, se, comp, tr, no⟩
          (.workerStep i) = none := by
        simp [step, hget]
      rw [stepD_eq_of_none hn]
      exact ⟨rfl, Or.inr rfl⟩
    | pushSentinels =>
      have hj : ¬ jobs.length = 0 := by
        simpa using fun hnil => hk (List.length_eq_zero.mp hnil)
      have hd : ¬ tj ≤ 0 := by omega
      have hn : step handler 0 jobs
          ⟨q, 0, List.replicate 0 Worker.fresh, .waiting, tj, se, comp, tr, no⟩
          .pushSentinels = none := by
        simp [step, hd]
      rw [stepD_eq_of_none hn]
      exact ⟨rfl, Or.inr rfl⟩
    | joinWorkers =>
      have hn : step handler 0 jobs
          ⟨q, 0, List.replicate 0 Worker.fresh, .waiting, tj, se, comp, tr, no⟩
          .joinWorkers = none := by
        simp [step]
      rw [stepD_eq_of_none hn]
      exact ⟨rfl, Or.inr rfl⟩
  | joining =>
    rcases hph with h | h <;> exact absurd h (by simp)
  | done =>
    rcases hph with h | h <;> exact absurd h (by simp)

/-- With zero workers and a non-empty job set, no schedule moves the counter
off 0 or the manager past its polling loop. -/
theorem nw_zero_reach (handler : Job → Nat → Bool) (jobs : List Job)
    (hk : jobs ≠ []) (sched : List Label) (s : SysState)
    (hinv : Inv 0 jobs s) (hc0 : s.counter = 0)
    (hph : s.phase = .created ∨ s.phase = .waiting) :
    (runSys handler 0 jobs sched s).counter = 0 ∧
    ((runSys handler 0 jobs sched s).phase = .created ∨
     (runSys handler 0 jobs sched s).phase = .waiting) := by
  induction sched generalizing s with
  | nil => exact ⟨hc0, hph⟩
  | cons l ls ih =>
    obtain ⟨hc0', hph'⟩ := nw_zero_step handler jobs hk s l hinv hc0 hph
    exact ih _ (inv_stepD handler 0 jobs s l hinv) hc0' hph'

/-- Claim C9 (implicit).  In the `BaseManager` variant of
`src/smhi/smhi/util/multiprocessing.py`, constructing with the default
`num_workers = -1` leaves `self.num_workers = -1` (the `os.cpu_count()`
value computed on the first line is overwritten by the later assignment), so
`range(self.num_workers)` is empty: `start_workers` starts zero workers and
`stop_workers` would enqueue zero sentinels; and with `total_jobs > 0` the
counter stays 0 forever, so the wait loop of `run()` can never observe
`counter == total` — the run never reaches the sentinel-push or join stages. -/
theorem variant_default_workers_stall (cpu_count : Nat)
    (handler : Job → Nat → Bool) (jobs : List Job) (sched : List Label)
    (hk : jobs ≠ []) :
    (variantInit cpu_count (-1)).num_workers = -1 ∧
    pyRangeLen (variantInit cpu_count (-1)).num_workers = 0 ∧
    (runSys handler (pyRangeLen (variantInit cpu_count (-1)).num_workers)
      jobs sched initState).counter = 0 ∧
    (runSys handler (pyRangeLen (variantInit cpu_count (-1)).num_workers)
      jobs sched initState).counter < jobs.length ∧
    (runSys handler (pyRangeLen (variantInit cpu_count (-1)).num_workers)
      jobs sched initState).phase ≠ .joining ∧
    (runSys handler (pyRangeLen (variantInit cpu_count (-1)).num_workers)
      jobs sched initState).phase ≠ .done := by
  have hreach := nw_zero_reach handler jobs hk sched initState
    (inv_init 0 jobs) rfl (Or.inl rfl)
  obtain ⟨hc0, hph⟩ := hreach
  have hlen : 0 < jobs.length := List.length_pos.mpr hk
  refine ⟨rfl, rfl, hc0, ?_, ?_, ?_⟩
  · show (runSys handler 0 jobs sched initState).counter < jobs.length
    rw [hc0]; exact hlen
  · show (runSys handler 0 jobs sched initState).phase ≠ .joining
    rcases hph with h | h <;> rw [h] <;> simp
  · show (runSys handler 0 jobs sched initState).phase ≠ .done
    rcases hph with h | h <;> rw [h] <;> simp

/-- Witness for `variant_default_workers_stall`: four CPUs reported, one job,
a schedule that tries to make progress; the counter stays 0 and the run never
completes. -/
theorem variant_default_workers_stall_witness :
    (variantInit 4 (-1)).num_workers = -1 ∧
    pyRangeLen (variantInit 4 (-1)).num_workers = 0 ∧
    (runSys (fun _ _ => true) (pyRangeLen (variantInit 4 (-1)).num_workers)
      [3] [.managerRun, .workerStep 0, .pushSentinels, .joinWorkers]
      initState).counter = 0 ∧
    (runSys (fun _ _ => true) (pyRangeLen (variantInit 4 (-1)).num_workers)
      [3] [.managerRun, .workerStep 0, .pushSentinels, .joinWorkers]
      initState).counter < 1 ∧
    (runSys (fun _ _ => true) (pyRangeLen (variantInit 4 (-1)).num_workers)
      [3] [.managerRun, .workerStep 0, .pushSentinels, .joinWorkers]
      initState).phase ≠ .joining ∧
    (runSys (fun _ _ => true) (pyRangeLen (variantInit 4 (-1)).num_workers)
      [3] [.managerRun, .workerStep 0, .pushSentinels, .joinWorkers]
      initState).phase ≠ .done :=
  variant_default_workers_stall 4 (fun _ _ => true) [3]
    [.managerRun, .workerStep 0, .pushSentinels, .joinWorkers] (by simp)

/-- Claim C10 (implicit).  A worker that pulls `None` from the queue treats it
as the shutdown sentinel regardless of who enqueued it: it disposes its
engine and terminates without invoking `process_job` — the queue, the counter,
the completed list and the attempt log are otherwise untouched, and the
result does not depend on the handler.  Hence a caller-enqueued "job" whose
value is `None` is never processed and instead terminates one worker. -/
theorem none_item_terminates_worker (handler : Job → Nat → Bool) (nw : Nat)
    (jobs : List Job) (s : SysState) (i : Nat) (w : Worker) (rest : List Item)
    (hph : s.phase = .waiting ∨ s.phase = .joining)
    (hget : s.workers[i]? = some w) (hrun : w.status = .running)
    (hq : s.queue = Option.none :: rest) :
    step handler nw jobs s (.workerStep i) =
      some { s with
             queue := rest
             workers := s.workers.set i
               { w with status := .terminated, sentinels := w.sentinels + 1, engineDisposed := true } } := by
  obtain ⟨q, c, ws, ph, tj, se, comp, tr, no⟩ := s
  dsimp only at hget hq ⊢
  subst hq
  simp [step, hph, hget, hrun]

/-- Witness for `none_item_terminates_worker` at a concrete state with a
`None` at the head of the queue. -/
theorem none_item_terminates_worker_witness :
    step (fun _ _ => true) 1 [5]
      ⟨[Option.none, some 5], 0, [Worker.fresh], .waiting, 1, 0, [], [], false⟩
      (.workerStep 0) =
    some ⟨[some 5], 0,
      [{ Worker.fresh with status := .terminated, sentinels := 1, engineDisposed := true }],
      .waiting, 1, 0, [], [], false⟩ := by
  have h := none_item_terminates_worker (fun _ _ => true) 1 [5]
    ⟨[Option.none, some 5], 0, [Worker.fresh], .waiting, 1, 0, [], [], false⟩
    0 Worker.fresh [some 5] (Or.inl rfl) rfl rfl rfl
  exact h

end SMHI
